import Mathlib

/-!
Verification of the crypto-correlation repository.

The visible source under `src/` is the React presentation layer
(`frontend/src/App.js` and two variants of the same component under
`src/unnamed/`), plus documentation.  The analytics engine itself (series
alignment, Pearson correlation, rolling correlation, beta, result cache,
HTTP endpoints) is a Python backend that is not part of the visible tree;
its behaviour is modelled here from the specification, as marked on each
definition.  Frontend behaviour (coin selection, matrix cell rendering) is
embedded directly from the JavaScript source.
-/

namespace CryptoCorr

/-! ## Frontend: coin selection (from `frontend/src/App.js`, `addCoin` / `removeCoin`) -/

/-- Initial selected-coins state, from `useState(["bitcoin", "ethereum", "solana"])`. -/
def initialCoins : List String := ["bitcoin", "ethereum", "solana"]

/-- Embeds `addCoin` from `frontend/src/App.js` (lines 134-167): the coin id is
lower-cased and trimmed, an empty id is ignored, and the id is appended only
when it is not already in the list. -/
def addCoin (coins : List String) (target : String) : List String :=
  let coinId := target.toLower.trim
  if coinId = "" then coins
  else if coinId ∈ coins then coins
  else coins ++ [coinId]

/-- Embeds `removeCoin` from `frontend/src/App.js`: `coins.filter(c => c !== coin)`. -/
def removeCoin (coins : List String) (coin : String) : List String :=
  coins.filter (fun c => c ≠ coin)

/-- A user interaction with the selected-coins list. -/
inductive CoinOp where
  | add : String → CoinOp
  | remove : String → CoinOp

/-- Apply one coin-list operation. -/
def applyOp (coins : List String) : CoinOp → List String
  | .add s => addCoin coins s
  | .remove s => removeCoin coins s

/-- The coin list reached from the initial state by a sequence of operations. -/
def applyOps (ops : List CoinOp) : List String :=
  ops.foldl applyOp initialCoins

/-! ## Frontend: matrix cell rendering -/

/-- Rendered content of one matrix cell: CSS class, inline background colour
(absent for the placeholder cell), tooltip label, and the displayed content,
either literal placeholder text or the numeric value. -/
structure CellView where
  cssClass : String
  bgColor : Option String
  titleLabel : String
  display : String ⊕ ℚ
deriving DecidableEq

/-- Embeds `getColor` from `src/unnamed/part_000`. -/
def getColor (v : ℚ) : String :=
  if 7/10 ≤ v then "#10b981"
  else if 2/5 ≤ v then "#f59e0b"
  else if 0 ≤ v then "#ef4444"
  else "#dc2626"

/-- Embeds `getLabel` from `src/unnamed/part_000`. -/
def getLabel (v : ℚ) : String :=
  if 7/10 ≤ v then "Strong"
  else if 2/5 ≤ v then "Moderate"
  else if 0 ≤ v then "Weak"
  else "Negative"

/-- Embeds the matrix cell rendering of `src/unnamed/part_000` (lines 292-307):
a missing (`undefined`/`null`) value renders a placeholder cell with class
`matrix-cell matrix-cell-loading`, text `-` and tooltip `Loading...`; a present
value renders the coloured numeric cell. -/
def renderCell (value : Option ℚ) : CellView :=
  match value with
  | none => ⟨"matrix-cell matrix-cell-loading", none, "Loading...", Sum.inl "-"⟩
  | some v => ⟨"matrix-cell", some (getColor v), getLabel v, Sum.inr v⟩

/-- Embeds `getCorrelationColor` from `frontend/src/App.js`. -/
def getCorrelationColor (v : ℚ) : String :=
  if 4/5 ≤ v then "#10b981"
  else if 1/2 ≤ v then "#f59e0b"
  else if 0 ≤ v then "#f97316"
  else "#ef4444"

/-- Embeds `getCorrelationLabel` from `frontend/src/App.js`. -/
def getCorrelationLabel (v : ℚ) : String :=
  if 4/5 ≤ v then "Strong"
  else if 1/2 ≤ v then "Moderate"
  else if 0 ≤ v then "Weak"
  else "Negative"

/-- Embeds the matrix cell rendering of `frontend/src/App.js` (lines 375-398):
the value is used unguarded (`value.toFixed(2)`), so rendering is only defined
for a present value; an absent cell value has no rendering (`none`), modelling
the thrown TypeError. -/
def renderCellMain (value : Option ℚ) : Option CellView :=
  value.map (fun v => ⟨"matrix-cell", some (getCorrelationColor v), getCorrelationLabel v, Sum.inr v⟩)

/-! ## Association lookup used for matrices and caches -/

/-- First-match association lookup on string-keyed lists. -/
def alookup {β : Type _} : List (String × β) → String → Option β
  | [], _ => none
  | (k, v) :: rest, a => if k = a then some v else alookup rest a

/-! ## Series Aligner (engine) -/

/-- Modelled from the spec: the Series Aligner (section 4.2) of the backend
engine, which is not in the visible tree.  The timestamps kept are those
present in every input series (strict intersection), in the order of the
first series. -/
def commonTimestamps (input : List (String × List (Nat × ℚ))) : List Nat :=
  match input with
  | [] => []
  | (_, s) :: rest =>
      (s.map Prod.fst).filter (fun t => rest.all (fun cs => (cs.2.map Prod.fst).contains t))

/-- Modelled from the spec: restrict a price series to the given timestamps,
in timestamp-list order. -/
def restrictTo (ts : List Nat) (s : List (Nat × ℚ)) : List ℚ :=
  ts.filterMap (fun t => (s.find? (fun pp => pp.1 == t)).map Prod.snd)

/-- Modelled from the spec: period-over-period relative change,
`return[i] = (price[i] - price[i-1]) / price[i-1]` (section 4.2). -/
def returnsOf (prices : List ℚ) : List ℚ :=
  List.zipWith (fun prev cur => (cur - prev) / prev) prices prices.tail

/-- Modelled from the spec: a price series is valid input for the return
conversion only when every price is positive (section 4.2). -/
def validPrices (prices : List ℚ) : Bool :=
  prices.all (fun p => decide (0 < p))

/-- Modelled from the spec: per-coin alignment outcome — the aligned return
series when the restricted series has at least 2 points and only positive
prices, otherwise `none` (the coin is to be skipped). -/
def alignOne (ts : List Nat) (s : List (Nat × ℚ)) : Option (List ℚ) :=
  let ps := restrictTo ts s
  if 2 ≤ ps.length ∧ validPrices ps then some (returnsOf ps) else none

/-- Result of alignment: the aligned return matrix plus the skipped coins. -/
structure AlignResult where
  aligned : List (String × List ℚ)
  skipped : List String
deriving DecidableEq

/-- Modelled from the spec: `align` (section 4.2) of the backend engine.
Coins whose restricted series is unusable are reported in `skipped` rather
than failing the whole request; output order follows input order. -/
def align (input : List (String × List (Nat × ℚ))) : AlignResult :=
  let ts := commonTimestamps input
  { aligned := input.filterMap (fun cs => (alignOne ts cs.2).map (fun rs => (cs.1, rs))),
    skipped := (input.filter (fun cs => (alignOne ts cs.2).isNone)).map Prod.fst }

/-! ## Correlation Calculator (engine) -/

/-- Modelled from the spec: sample mean of a return series. -/
def mean (xs : List ℚ) : ℚ := xs.sum / xs.length

/-- Modelled from the spec: covariance-style sum of centred products over the
paired observations of the two series. -/
def covList (xs ys : List ℚ) : ℚ :=
  ((xs.zip ys).map (fun p => (p.1 - mean xs) * (p.2 - mean ys))).sum

/-- Modelled from the spec: sum of squared deviations of a series. -/
def varList (xs : List ℚ) : ℚ :=
  (xs.map (fun x => (x - mean xs) ^ 2)).sum

/-- Modelled from the spec: the Pearson coefficient
`r = covariance(X,Y) / (stddev(X) * stddev(Y))` (section 4.3), absent
(`none`, never NaN) when either series has zero variance. -/
noncomputable def pearson (xs ys : List ℚ) : Option ℝ :=
  if varList xs = 0 ∨ varList ys = 0 then none
  else some ((covList xs ys : ℝ) / (Real.sqrt (varList xs) * Real.sqrt (varList ys)))

/-- Modelled from the spec: one cell of the correlation matrix.  Self
correlation is exactly 1.0 regardless of variance (section 4.3); other cells
are the Pearson coefficient of the pair. -/
noncomputable def correlationCell (a : String) (xs : List ℚ) (b : String) (ys : List ℚ) :
    Option ℝ :=
  if a = b then some 1 else pearson xs ys

/-- Modelled from the spec: `correlationMatrix` (section 4.3) of the backend
engine, one row per coin of the aligned return matrix, in input order. -/
noncomputable def correlationMatrix (m : List (String × List ℚ)) :
    List (String × List (String × Option ℝ)) :=
  m.map (fun p => (p.1, m.map (fun q => (q.1, correlationCell p.1 p.2 q.1 q.2))))

/-- Cell access of a correlation matrix by the two coin ids. -/
def mLookup (M : List (String × List (String × Option ℝ))) (a b : String) :
    Option (Option ℝ) :=
  (alookup M a).bind (fun row => alookup row b)

/-! ## Rolling Correlation Calculator (engine) -/

/-- Modelled from the spec: `rolling` (section 4.4) of the backend engine.
The window is validated first (`windowSize` at least 2 and at most the length
of the shorter input, else the request fails with `InvalidWindow`); otherwise
one Pearson coefficient is emitted per starting offset over the slice
`[i, i+windowSize)`. -/
noncomputable def rolling (xs ys : List ℚ) (w : Nat) : Except String (List (Option ℝ)) :=
  if w < 2 ∨ min xs.length ys.length < w then .error "InvalidWindow"
  else .ok ((List.range (min xs.length ys.length - w + 1)).map
      (fun i => pearson ((xs.drop i).take w) ((ys.drop i).take w)))

/-! ## Beta Calculator (engine) -/

/-- Modelled from the spec: `beta = covariance(coin, benchmark) /
variance(benchmark)` (section 4.5), absent when the benchmark variance is
zero. -/
noncomputable def betaPair (xs bench : List ℚ) : Option ℝ :=
  if varList bench = 0 then none
  else some ((covList xs bench : ℝ) / (varList bench : ℝ))

/-- Modelled from the spec: one beta-result entry (section 4.5).  The
benchmark's own entry is exactly `(1.0, 1.0)`; any other entry carries the
beta and the auxiliary Pearson correlation of the pair. -/
noncomputable def betaCell (benchId : String) (bench : List ℚ) (c : String) (xs : List ℚ) :
    Option ℝ × Option ℝ :=
  if c = benchId then (some 1, some 1) else (betaPair xs bench, pearson xs bench)

/-- Modelled from the spec: beta results for every coin of the aligned return
matrix against the benchmark coin (section 4.5), in input order. -/
noncomputable def betaResults (m : List (String × List ℚ)) (benchId : String) :
    List (String × (Option ℝ × Option ℝ)) :=
  match alookup m benchId with
  | none => []
  | some bench => m.map (fun p => (p.1, betaCell benchId bench p.1 p.2))

/-! ## Correlation-matrix endpoint (engine) -/

/-- Response of the correlation-matrix endpoint: the matrix plus the coins
omitted from it. -/
structure MatrixResponse where
  matrix : List (String × List (String × Option ℝ))
  skipped : List String

/-- Modelled from the spec: `GET /api/correlation-matrix` (sections 6 and 7)
of the backend, which is not in the visible tree.  An unknown coin id (one the
provider cannot resolve) is a per-coin omission; only when no requested coin
resolves does the endpoint answer 400 with an error detail. -/
noncomputable def correlationEndpoint (fetch : String → Option (List (Nat × ℚ)))
    (coins : List String) : Except (Nat × String) MatrixResponse :=
  if (coins.filterMap (fun c => (fetch c).map (fun s => (c, s)))).isEmpty then
    .error (400, "No valid coins provided")
  else
    .ok { matrix := correlationMatrix
            (align (coins.filterMap (fun c => (fetch c).map (fun s => (c, s))))).aligned,
          skipped := coins.filter (fun c => (fetch c).isNone) ++
            (align (coins.filterMap (fun c => (fetch c).map (fun s => (c, s))))).skipped }

/-! ## Result Cache (engine) -/

/-- Modelled from the spec: TTL lookup of the Result Cache (section 4.6); an
entry older than the configured duration is treated as a miss. -/
def cacheLookup {α : Type _} (ttl now : Nat) (cache : List (String × α × Nat))
    (key : String) : Option α :=
  match alookup cache key with
  | some (v, t) => if now - t < ttl then some v else none
  | none => none

/-- Modelled from the spec: `getOrCompute` (section 4.6) of the backend Result
Cache.  The computation argument carries its result together with the number
of upstream fetches it issues; a cache hit answers without computing (zero
fetches), a successful computation is stored, and a failed computation leaves
the cache unchanged. -/
def getOrCompute {α : Type _} (ttl now : Nat) (cache : List (String × α × Nat))
    (key : String) (compute : Except String α × Nat) :
    Except String α × List (String × α × Nat) × Nat :=
  match cacheLookup ttl now cache key with
  | some v => (.ok v, cache, 0)
  | none =>
    match compute with
    | (.ok v, n) => (.ok v, (key, v, now) :: cache, n)
    | (.error e, n) => (.error e, cache, n)

/-! ## Helper lemmas -/

theorem alookup_map_keyed {β γ : Type _} (m : List (String × γ)) (f : String → γ → β)
    (a : String) :
    alookup (m.map (fun p => (p.1, f p.1 p.2))) a = (alookup m a).map (f a) := by
  induction m with
  | nil => rfl
  | cons hd tl ih =>
      obtain ⟨k, v⟩ := hd
      by_cases hk : k = a
      · subst hk; simp [alookup]
      · simp [alookup, hk, ih]

theorem alookup_isSome_of_mem {β : Type _} {m : List (String × β)} {a : String}
    (h : a ∈ m.map Prod.fst) : ∃ v, alookup m a = some v := by
  induction m with
  | nil => simp at h
  | cons hd tl ih =>
      obtain ⟨k, v⟩ := hd
      by_cases hk : k = a
      · subst hk; exact ⟨v, by simp [alookup]⟩
      · have h' : a ∈ tl.map Prod.fst := by
          simp only [List.map_cons, List.mem_cons] at h
          rcases h with h₁ | h₂
          · exact absurd h₁.symm hk
          · exact h₂
        obtain ⟨w, hw⟩ := ih h'
        exact ⟨w, by simp [alookup, hk, hw]⟩

theorem mLookup_correlationMatrix (m : List (String × List ℚ)) (a b : String) :
    mLookup (correlationMatrix m) a b =
      (alookup m a).bind (fun xs => (alookup m b).map (fun ys => correlationCell a xs b ys)) := by
  unfold mLookup correlationMatrix
  rw [alookup_map_keyed m (fun a₀ xs => m.map (fun q => (q.1, correlationCell a₀ xs q.1 q.2))) a]
  cases h : alookup m a with
  | none => rfl
  | some xs =>
      have hrow := alookup_map_keyed m (fun b₀ ys => correlationCell a xs b₀ ys) b
      simpa using hrow

theorem sum_map_getD {α : Type _} (d : α) (f : α → ℚ) (l : List α) :
    (l.map f).sum = ∑ i ∈ Finset.range l.length, f (l.getD i d) := by
  induction l with
  | nil => simp
  | cons x xs ih =>
      rw [List.map_cons, List.sum_cons, List.length_cons, Finset.sum_range_succ']
      simp only [List.getD_cons_succ, List.getD_cons_zero]
      rw [ih]; ring

theorem varList_eq_sum (xs : List ℚ) :
    varList xs = ∑ i ∈ Finset.range xs.length, (xs.getD i 0 - mean xs) ^ 2 :=
  sum_map_getD 0 (fun x => (x - mean xs) ^ 2) xs

theorem covList_eq_sum (xs ys : List ℚ) :
    covList xs ys = ∑ i ∈ Finset.range (min xs.length ys.length),
      (xs.getD i 0 - mean xs) * (ys.getD i 0 - mean ys) := by
  unfold covList
  rw [sum_map_getD ((0 : ℚ), (0 : ℚ)) _ (xs.zip ys), List.length_zip]
  refine Finset.sum_congr rfl (fun i hi => ?_)
  rw [Finset.mem_range] at hi
  have hx : i < xs.length := lt_of_lt_of_le hi (min_le_left _ _)
  have hy : i < ys.length := lt_of_lt_of_le hi (min_le_right _ _)
  have hz : i < (xs.zip ys).length := by rw [List.length_zip]; exact hi
  rw [List.getD_eq_getElem _ _ hz, List.getElem_zip,
    List.getD_eq_getElem _ _ hx, List.getD_eq_getElem _ _ hy]

theorem varList_nonneg (xs : List ℚ) : 0 ≤ varList xs := by
  refine List.sum_nonneg (fun x hx => ?_)
  simp only [List.mem_map] at hx
  obtain ⟨y, _, rfl⟩ := hx
  exact sq_nonneg _

theorem covList_sq_le (xs ys : List ℚ) :
    covList xs ys ^ 2 ≤ varList xs * varList ys := by
  rw [covList_eq_sum, varList_eq_sum xs, varList_eq_sum ys]
  set n := min xs.length ys.length with hn
  have hcs := Finset.sum_mul_sq_le_sq_mul_sq (Finset.range n)
    (fun i => xs.getD i 0 - mean xs) (fun i => ys.getD i 0 - mean ys)
  refine le_trans hcs (mul_le_mul ?_ ?_ ?_ ?_)
  · refine Finset.sum_le_sum_of_subset_of_nonneg
      (Finset.range_subset.2 (min_le_left _ _)) (fun i _ _ => sq_nonneg _)
  · refine Finset.sum_le_sum_of_subset_of_nonneg
      (Finset.range_subset.2 (min_le_right _ _)) (fun i _ _ => sq_nonneg _)
  · exact Finset.sum_nonneg (fun i _ => sq_nonneg _)
  · exact Finset.sum_nonneg (fun i _ => sq_nonneg _)

theorem covList_comm (xs ys : List ℚ) : covList xs ys = covList ys xs := by
  unfold covList
  rw [← List.zip_swap xs ys, List.map_map]
  refine congrArg List.sum (List.map_congr_left (fun p _ => ?_))
  simp [Prod.swap, mul_comm]

theorem covList_self (xs : List ℚ) : covList xs xs = varList xs := by
  rw [covList_eq_sum, varList_eq_sum, min_self]
  exact Finset.sum_congr rfl (fun i _ => by ring)

theorem pearson_comm (xs ys : List ℚ) : pearson xs ys = pearson ys xs := by
  unfold pearson
  rw [covList_comm xs ys]
  by_cases hx : varList xs = 0 <;> by_cases hy : varList ys = 0 <;>
    simp [hx, hy, mul_comm]

theorem pearson_bounds {xs ys : List ℚ} {r : ℝ} (h : pearson xs ys = some r) :
    -1 ≤ r ∧ r ≤ 1 := by
  unfold pearson at h
  by_cases hc : varList xs = 0 ∨ varList ys = 0
  · simp [hc] at h
  · rw [if_neg hc] at h
    push_neg at hc
    obtain ⟨hx, hy⟩ := hc
    have hxpos : (0 : ℚ) < varList xs := lt_of_le_of_ne (varList_nonneg xs) (Ne.symm hx)
    have hypos : (0 : ℚ) < varList ys := lt_of_le_of_ne (varList_nonneg ys) (Ne.symm hy)
    have hxr : (0 : ℝ) < (varList xs : ℝ) := by exact_mod_cast hxpos
    have hyr : (0 : ℝ) < (varList ys : ℝ) := by exact_mod_cast hypos
    have hd : (0 : ℝ) < Real.sqrt (varList xs) * Real.sqrt (varList ys) :=
      mul_pos (Real.sqrt_pos.2 hxr) (Real.sqrt_pos.2 hyr)
    have hsq : ((covList xs ys : ℝ)) ^ 2 ≤ (varList xs : ℝ) * (varList ys : ℝ) := by
      exact_mod_cast covList_sq_le xs ys
    have habs : |(covList xs ys : ℝ)| ≤ Real.sqrt (varList xs) * Real.sqrt (varList ys) := by
      rw [← Real.sqrt_sq_eq_abs, ← Real.sqrt_mul hxr.le]
      exact Real.sqrt_le_sqrt hsq
    have hfin : |r| ≤ 1 := by
      have hr : r = (covList xs ys : ℝ) / (Real.sqrt (varList xs) * Real.sqrt (varList ys)) :=
        (Option.some_inj.1 h).symm
      rw [hr, abs_div, abs_of_pos hd]
      exact div_le_one_of_le₀ habs hd.le
    exact abs_le.1 hfin

theorem varList_replicate (n : ℕ) (c : ℚ) : varList (List.replicate n c) = 0 := by
  rcases Nat.eq_zero_or_pos n with h | h
  · subst h; simp [varList]
  · have hm : mean (List.replicate n c) = c := by
      rw [mean, List.sum_replicate, List.length_replicate, nsmul_eq_mul]
      exact mul_div_cancel_left₀ c (Nat.cast_ne_zero.2 h.ne')
    simp [varList, hm, List.map_replicate]

theorem aligned_keys_eq (ts : List Nat) (input : List (String × List (Nat × ℚ))) :
    ((input.filterMap (fun cs => (alignOne ts cs.2).map (fun rs => (cs.1, rs)))).map Prod.fst) =
      ((input.filter (fun cs => (alignOne ts cs.2).isSome)).map Prod.fst) := by
  induction input with
  | nil => rfl
  | cons hd tl ih =>
      cases h : alignOne ts hd.2 with
      | none => simpa [List.filterMap_cons, List.filter_cons, h] using ih
      | some rs => simpa [List.filterMap_cons, List.filter_cons, h] using ih

theorem aligned_keys_sublist (ts : List Nat) (input : List (String × List (Nat × ℚ))) :
    ((input.filterMap (fun cs => (alignOne ts cs.2).map (fun rs => (cs.1, rs)))).map
      Prod.fst).Sublist (input.map Prod.fst) := by
  induction input with
  | nil => simp
  | cons hd tl ih =>
      cases h : alignOne ts hd.2 with
      | none =>
          simp only [List.filterMap_cons, h, List.map_cons]
          exact ih.cons hd.1
      | some rs =>
          simp only [List.filterMap_cons, h, List.map_cons, Option.map_some']
          exact ih.cons₂ hd.1

theorem mem_skipped_of_alignOne_none {input : List (String × List (Nat × ℚ))}
    {c : String} {s : List (Nat × ℚ)} (hmem : (c, s) ∈ input)
    (h : alignOne (commonTimestamps input) s = none) : c ∈ (align input).skipped := by
  unfold align
  simp only [List.mem_map]
  exact ⟨(c, s), List.mem_filter.2 ⟨hmem, by simp [h]⟩, rfl⟩

theorem mem_aligned_of_alignOne_some {input : List (String × List (Nat × ℚ))}
    {c : String} {s : List (Nat × ℚ)} {rs : List ℚ} (hmem : (c, s) ∈ input)
    (h : alignOne (commonTimestamps input) s = some rs) : (c, rs) ∈ (align input).aligned := by
  unfold align
  simp only [List.mem_filterMap]
  exact ⟨(c, s), hmem, by simp [h]⟩

theorem returnsOf_length (ps : List ℚ) : (returnsOf ps).length = ps.length - 1 := by
  unfold returnsOf
  rw [List.length_zipWith, List.length_tail]
  omega

theorem returnsOf_get (ps : List ℚ) (i : ℕ) (h : i < (returnsOf ps).length) :
    (returnsOf ps).get ⟨i, h⟩ = (ps.getD (i + 1) 0 - ps.getD i 0) / ps.getD i 0 := by
  have hlen : i < ps.length - 1 := by rw [returnsOf_length] at h; exact h
  have hi : i < ps.length := by omega
  have hi1 : i + 1 < ps.length := by omega
  have ht : i < ps.tail.length := by rw [List.length_tail]; exact hlen
  show (returnsOf ps)[i] = _
  unfold returnsOf
  rw [List.getElem_zipWith, List.getElem_tail,
    List.getD_eq_getElem _ _ hi, List.getD_eq_getElem _ _ hi1]

theorem addCoin_nodup {coins : List String} (h : coins.Nodup) (target : String) :
    (addCoin coins target).Nodup := by
  unfold addCoin
  by_cases he : target.toLower.trim = ""
  · simpa [he] using h
  · by_cases hm : target.toLower.trim ∈ coins
    · simp only [he, if_false, hm, if_true]
      exact h
    · simp only [he, if_false, hm, ite_false]
      simp only [List.nodup_append, List.nodup_cons, List.nodup_nil]
      exact ⟨h, by simp, by simpa [List.disjoint_singleton] using hm⟩

theorem removeCoin_nodup {coins : List String} (h : coins.Nodup) (coin : String) :
    (removeCoin coins coin).Nodup :=
  h.filter _

theorem applyOp_nodup {coins : List String} (h : coins.Nodup) (op : CoinOp) :
    (applyOp coins op).Nodup := by
  cases op with
  | add s => exact addCoin_nodup h s
  | remove s => exact removeCoin_nodup h s

theorem foldl_applyOp_nodup (ops : List CoinOp) :
    ∀ coins : List String, coins.Nodup → (ops.foldl applyOp coins).Nodup := by
  induction ops with
  | nil => intro coins h; exact h
  | cons op rest ih =>
      intro coins h
      exact ih _ (applyOp_nodup h op)

theorem correlationMatrix_keys (m : List (String × List ℚ)) :
    (correlationMatrix m).map Prod.fst = m.map Prod.fst := by
  unfold correlationMatrix
  rw [List.map_map]
  rfl

/-! ## Claim theorems -/

/-- Claim C1: for every coin C present in the output of `correlationMatrix`, the
diagonal entry at (C, C) is exactly 1.0, regardless of the variance of C's
return series (the series is arbitrary, including constant ones). -/
theorem correlation_diag_one (m : List (String × List ℚ)) (c : String)
    (h : c ∈ m.map Prod.fst) :
    mLookup (correlationMatrix m) c c = some (some 1) := by
  obtain ⟨xs, hxs⟩ := alookup_isSome_of_mem h
  rw [mLookup_correlationMatrix, hxs]
  simp [correlationCell]

/-- Witness for claim C1 at a concrete one-coin matrix with a constant return
series (zero variance). -/
theorem correlation_diag_one_witness :
    "bitcoin" ∈ ([("bitcoin", [(3 : ℚ), 3])].map Prod.fst) ∧
    mLookup (correlationMatrix [("bitcoin", [(3 : ℚ), 3])]) "bitcoin" "bitcoin" =
      some (some 1) :=
  ⟨by decide, correlation_diag_one _ _ (by decide)⟩

/-- Claim C2: the correlation matrix is symmetric — the (A, B) cell equals the
(B, A) cell for every pair of coin ids — and every present cell value lies in
the closed interval [-1, 1]. -/
theorem correlation_symm_bounded (m : List (String × List ℚ)) (a b : String) (r : ℝ) :
    mLookup (correlationMatrix m) a b = mLookup (correlationMatrix m) b a ∧
    (mLookup (correlationMatrix m) a b = some (some r) → -1 ≤ r ∧ r ≤ 1) := by
  constructor
  · rw [mLookup_correlationMatrix, mLookup_correlationMatrix]
    cases hxa : alookup m a with
    | none =>
        cases hxb : alookup m b with
        | none => simp
        | some ys => simp
    | some xs =>
        cases hxb : alookup m b with
        | none => simp
        | some ys =>
            simp only [Option.map_some', Option.some_bind, Option.some_inj]
            unfold correlationCell
            by_cases hab : a = b
            · subst hab; simp
            · simp [hab, Ne.symm hab, pearson_comm xs ys]
  · intro h
    rw [mLookup_correlationMatrix] at h
    cases hxa : alookup m a with
    | none => rw [hxa] at h; simp at h
    | some xs =>
        cases hxb : alookup m b with
        | none => rw [hxa, hxb] at h; simp at h
        | some ys =>
            rw [hxa, hxb] at h
            simp only [Option.map_some', Option.some_bind, Option.some_inj] at h
            unfold correlationCell at h
            by_cases hab : a = b
            · rw [if_pos hab] at h
              have hr : r = 1 := (Option.some_inj.1 h).symm
              subst hr; norm_num
            · rw [if_neg hab] at h
              exact pearson_bounds h

/-- Witness for claim C2 at a concrete matrix: the present diagonal cell value
1 satisfies the bounds. -/
theorem correlation_symm_bounded_witness :
    mLookup (correlationMatrix [("bitcoin", [(0 : ℚ), 1])]) "bitcoin" "bitcoin" =
      some (some 1) ∧ (-1 : ℝ) ≤ 1 ∧ (1 : ℝ) ≤ 1 := by
  have hval : mLookup (correlationMatrix [("bitcoin", [(0 : ℚ), 1])]) "bitcoin" "bitcoin" =
      some (some 1) := by
    rw [mLookup_correlationMatrix]
    simp [alookup, correlationCell]
  exact ⟨hval, (correlation_symm_bounded [("bitcoin", [(0 : ℚ), 1])] "bitcoin" "bitcoin" 1).2 hval⟩

/-- Claim C4 counterexample: the presentation layer does not render an absent
cell as "insufficient data".  The guarded variant (`src/unnamed/part_000`)
renders the placeholder text `-` with tooltip `Loading...`, and the primary
`frontend/src/App.js` has no absent-cell handling at all (its rendering is
undefined on an absent value). -/
theorem absent_cell_render_cex :
    renderCell none = ⟨"matrix-cell matrix-cell-loading", none, "Loading...", Sum.inl "-"⟩ ∧
    (renderCell none).titleLabel ≠ "insufficient data" ∧
    (renderCell none).display ≠ Sum.inl "insufficient data" ∧
    renderCellMain none = none :=
  ⟨rfl, by decide, by decide, rfl⟩

/-- Claim C4 (amended): a zero-variance return series yields an absent (`none`)
correlation against any series — never NaN — and a constant series always has
zero variance; the guarded presentation variant renders the absent cell as the
`-` placeholder with a `Loading...` tooltip without failing, while the primary
`App.js` variant leaves an absent cell unrendered. -/
theorem zero_variance_absent (xs ys : List ℚ) (n : ℕ) (c : ℚ) (h : varList xs = 0) :
    pearson xs ys = none ∧ pearson ys xs = none ∧
    pearson (List.replicate n c) ys = none ∧
    renderCell none = ⟨"matrix-cell matrix-cell-loading", none, "Loading...", Sum.inl "-"⟩ ∧
    renderCellMain none = none := by
  refine ⟨?_, ?_, ?_, rfl, rfl⟩
  · unfold pearson; rw [if_pos (Or.inl h)]
  · unfold pearson; rw [if_pos (Or.inr h)]
  · unfold pearson; rw [if_pos (Or.inl (varList_replicate n c))]

/-- Witness for the amended claim C4 at concrete series: a constant series
against a non-constant one. -/
theorem zero_variance_absent_witness :
    pearson [(2 : ℚ), 2] [(0 : ℚ), 1] = none ∧ pearson [(0 : ℚ), 1] [(2 : ℚ), 2] = none ∧
    pearson (List.replicate 5 (3 : ℚ)) [(0 : ℚ), 1] = none ∧
    renderCell none = ⟨"matrix-cell matrix-cell-loading", none, "Loading...", Sum.inl "-"⟩ ∧
    renderCellMain none = none :=
  zero_variance_absent [(2 : ℚ), 2] [(0 : ℚ), 1] 5 3 (by norm_num [varList, mean])

/-- Claim C10: in the frontend, starting from the initial selected-coins state,
any sequence of `addCoin` / `removeCoin` operations leaves the list without
duplicate entries — `addCoin` appends only ids not already present and
`removeCoin` only removes. -/
theorem coins_list_nodup (ops : List CoinOp) : (applyOps ops).Nodup :=
  foldl_applyOp_nodup ops initialCoins (by decide)

/-- Claim C3 counterexample: with one aligned observation and windowSize 2 (an
input with fewer than windowSize observations), `rolling` fails with
`InvalidWindow` instead of returning an empty series, so the claim's
"empty output, not an error" clause is false (it contradicts the claim's own
validation clause, which no single function can satisfy together with it). -/
theorem rolling_short_input_cex :
    rolling [(1 : ℚ)] [(1 : ℚ)] 2 = Except.error "InvalidWindow" ∧
    rolling [(1 : ℚ)] [(1 : ℚ)] 2 ≠ Except.ok [] := by
  have h : rolling [(1 : ℚ)] [(1 : ℚ)] 2 = Except.error "InvalidWindow" := by
    unfold rolling
    rw [if_pos (Or.inr (by norm_num))]
  exact ⟨h, by rw [h]; simp⟩

/-- Claim C3 (amended): `rolling` fails with `InvalidWindow` exactly when the
window is smaller than 2 or larger than the shorter input — in particular an
input with fewer than windowSize observations is an `InvalidWindow` error, not
an empty output; otherwise it emits one Pearson coefficient per starting
offset i over the slice [i, i+windowSize), so the output length is
(shorter length) - windowSize + 1. -/
theorem rolling_window_spec (xs ys : List ℚ) (w : ℕ) :
    ((∃ e, rolling xs ys w = Except.error e) ↔ w < 2 ∨ min xs.length ys.length < w) ∧
    (∀ out, rolling xs ys w = Except.ok out →
      out.length = min xs.length ys.length - w + 1 ∧
      ∀ i, (h : i < out.length) →
        out.get ⟨i, h⟩ = pearson ((xs.drop i).take w) ((ys.drop i).take w)) := by
  constructor
  · constructor
    · rintro ⟨e, he⟩
      by_contra hcond
      unfold rolling at he
      rw [if_neg hcond] at he
      exact absurd he (by simp)
    · intro hcond
      exact ⟨"InvalidWindow", by unfold rolling; rw [if_pos hcond]⟩
  · intro out hout
    unfold rolling at hout
    by_cases hcond : w < 2 ∨ min xs.length ys.length < w
    · rw [if_pos hcond] at hout
      exact absurd hout (by simp)
    · rw [if_neg hcond] at hout
      simp only [Except.ok.injEq] at hout
      subst hout
      refine ⟨by simp, ?_⟩
      intro i h
      have hi : i < min xs.length ys.length - w + 1 := by simpa using h
      show ((List.range _).map _)[i] = _
      simp

/-- Witness for the amended claim C3: a window of 1 is rejected as
`InvalidWindow` on a concrete pair of series. -/
theorem rolling_window_spec_witness :
    ∃ e, rolling [(0 : ℚ), 1, 2] [(0 : ℚ), 1, 2] 1 = Except.error e :=
  (rolling_window_spec [(0 : ℚ), 1, 2] [(0 : ℚ), 1, 2] 1).1.mpr (Or.inl (by norm_num))

/-- Claim C6: when the benchmark coin is among the requested coins its own
result is exactly (beta 1.0, correlation 1.0); every other coin's beta is
covariance(coin, benchmark) / variance(benchmark), absent when the benchmark
variance is zero — and the special-cased self entry agrees with that formula
whenever the benchmark variance is nonzero. -/
theorem beta_benchmark_self (m : List (String × List ℚ)) (benchId : String)
    (bench : List ℚ) (hb : alookup m benchId = some bench) :
    alookup (betaResults m benchId) benchId = some (some 1, some 1) ∧
    (∀ c xs, alookup m c = some xs → c ≠ benchId →
      alookup (betaResults m benchId) c = some (betaPair xs bench, pearson xs bench)) ∧
    (varList bench = 0 → ∀ xs, betaPair xs bench = none) ∧
    (varList bench ≠ 0 → betaPair bench bench = some 1) := by
  have hres : betaResults m benchId = m.map (fun p => (p.1, betaCell benchId bench p.1 p.2)) := by
    unfold betaResults
    rw [hb]
  refine ⟨?_, ?_, ?_, ?_⟩
  · rw [hres, alookup_map_keyed m (betaCell benchId bench) benchId, hb]
    simp [betaCell]
  · intro c xs hc hne
    rw [hres, alookup_map_keyed m (betaCell benchId bench) c, hc]
    simp [betaCell, hne]
  · intro hv xs
    unfold betaPair
    rw [if_pos hv]
  · intro hv
    unfold betaPair
    rw [if_neg hv, covList_self]
    have hcast : ((varList bench : ℝ)) ≠ 0 := by exact_mod_cast hv
    simp [div_self hcast]

/-- Witness for claim C6 at a concrete one-coin matrix whose single coin is the
benchmark, with nonzero benchmark variance. -/
theorem beta_benchmark_self_witness :
    alookup (betaResults [("btc", [(0 : ℚ), 1])] "btc") "btc" = some (some 1, some 1) ∧
    betaPair [(0 : ℚ), 1] [(0 : ℚ), 1] = some 1 := by
  have h := beta_benchmark_self [("btc", [(0 : ℚ), 1])] "btc" [(0 : ℚ), 1] (by simp [alookup])
  exact ⟨h.1, h.2.2.2 (by norm_num [varList, mean])⟩

/-- Claim C8: within one TTL period a second `getOrCompute` for the same key is
served from the cache and issues zero upstream fetches (so the two calls issue
at most one fetch set), and a failed computation is never stored — the cache
state is unchanged on error. -/
theorem cache_single_fetch {α : Type} (ttl t₁ t₂ n m : ℕ) (st : List (String × α × Nat))
    (key : String) (v : α) (comp₂ : Except String α × ℕ) (e : String)
    (hmiss : cacheLookup ttl t₁ st key = none) (horder : t₁ ≤ t₂)
    (hfresh : t₂ - t₁ < ttl) :
    getOrCompute ttl t₁ st key (.ok v, n) = (.ok v, (key, v, t₁) :: st, n) ∧
    getOrCompute ttl t₂ ((key, v, t₁) :: st) key comp₂ = (.ok v, (key, v, t₁) :: st, 0) ∧
    getOrCompute ttl t₁ st key (.error e, m) = (.error e, st, m) := by
  have ha : alookup ((key, v, t₁) :: st) key = some (v, t₁) := by simp [alookup]
  have hhit : cacheLookup ttl t₂ ((key, v, t₁) :: st) key = some v := by
    simp [cacheLookup, ha, hfresh]
  refine ⟨?_, ?_, ?_⟩
  · unfold getOrCompute
    rw [hmiss]
  · unfold getOrCompute
    rw [hhit]
  · unfold getOrCompute
    rw [hmiss]

/-- Witness for claim C8 at concrete cache states and times. -/
theorem cache_single_fetch_witness :
    getOrCompute 10 0 ([] : List (String × ℕ × ℕ)) "k" (.ok 42, 3) =
      (.ok 42, ("k", 42, 0) :: [], 3) ∧
    getOrCompute 10 5 (("k", 42, 0) :: []) "k" (.ok 7, 9) = (.ok 42, ("k", 42, 0) :: [], 0) ∧
    getOrCompute 10 0 ([] : List (String × ℕ × ℕ)) "k" (.error "boom", 2) =
      (.error "boom", [], 2) :=
  cache_single_fetch 10 0 5 3 2 [] "k" 42 (.ok 7, 9) "boom" rfl (by norm_num) (by norm_num)

/-- Claim C9: `align` is a pure, deterministic function of its input — equal
inputs give equal outputs — and the coins of the output aligned matrix appear
in input order (they are exactly the kept coins, in the order of the input
list). -/
theorem align_pure_and_ordered (m₁ m₂ : List (String × List (Nat × ℚ))) (h : m₁ = m₂) :
    align m₁ = align m₂ ∧
    ((align m₁).aligned.map Prod.fst).Sublist (m₁.map Prod.fst) ∧
    (align m₁).aligned.map Prod.fst =
      (m₁.filter (fun cs => (alignOne (commonTimestamps m₁) cs.2).isSome)).map Prod.fst := by
  subst h
  exact ⟨rfl, aligned_keys_sublist _ m₁, aligned_keys_eq _ m₁⟩

/-- Witness for claim C9 at a concrete one-coin input. -/
theorem align_pure_and_ordered_witness :
    align [("a", [(0, (1 : ℚ)), (1, 2)])] = align [("a", [(0, (1 : ℚ)), (1, 2)])] ∧
    ((align [("a", [(0, (1 : ℚ)), (1, 2)])]).aligned.map Prod.fst).Sublist
      ([("a", [(0, (1 : ℚ)), (1, 2)])].map Prod.fst) ∧
    (align [("a", [(0, (1 : ℚ)), (1, 2)])]).aligned.map Prod.fst =
      ([("a", [(0, (1 : ℚ)), (1, 2)])].filter
        (fun cs => (alignOne (commonTimestamps [("a", [(0, (1 : ℚ)), (1, 2)])]) cs.2).isSome)).map
        Prod.fst :=
  align_pure_and_ordered _ _ rfl

/-- Claim C5: when at least one requested coin resolves, the endpoint answers
with a matrix response (no whole-request failure) in which every unknown coin
is flagged as skipped and every resolvable coin either has a matrix row or is
flagged as skipped; the endpoint answers 400 with an error detail exactly when
no requested coin resolves. -/
theorem endpoint_per_coin_omission (fetch : String → Option (List (Nat × ℚ)))
    (coins : List String) :
    ((∃ c ∈ coins, (fetch c).isSome) →
      ∃ resp, correlationEndpoint fetch coins = .ok resp ∧
        (∀ c ∈ coins, fetch c = none → c ∈ resp.skipped) ∧
        (∀ c ∈ coins, (fetch c).isSome →
          c ∈ resp.matrix.map Prod.fst ∨ c ∈ resp.skipped)) ∧
    (∀ er, correlationEndpoint fetch coins = .error er ↔
      (er = (400, "No valid coins provided") ∧ ∀ c ∈ coins, fetch c = none)) := by
  constructor
  · rintro ⟨c₀, hc₀, hsome₀⟩
    have hne : ¬((coins.filterMap (fun c => (fetch c).map (fun s => (c, s)))).isEmpty = true) := by
      intro hemp
      have hnil : coins.filterMap (fun c => (fetch c).map (fun s => (c, s))) = [] := by
        rwa [List.isEmpty_iff] at hemp
      have hFc := List.filterMap_eq_nil_iff.1 hnil c₀ hc₀
      rw [Option.map_eq_none'] at hFc
      rw [hFc] at hsome₀
      exact absurd hsome₀ (by simp)
    refine ⟨⟨correlationMatrix
        (align (coins.filterMap (fun c => (fetch c).map (fun s => (c, s))))).aligned,
        coins.filter (fun c => (fetch c).isNone) ++
          (align (coins.filterMap (fun c => (fetch c).map (fun s => (c, s))))).skipped⟩,
      ?_, ?_, ?_⟩
    · unfold correlationEndpoint
      rw [if_neg hne]
    · intro c hc hnone
      refine List.mem_append_left _ (List.mem_filter.2 ⟨hc, ?_⟩)
      simp [hnone]
    · intro c hc hsome
      obtain ⟨s, hs⟩ := Option.isSome_iff_exists.1 hsome
      have hmemres : (c, s) ∈ coins.filterMap (fun c => (fetch c).map (fun s => (c, s))) :=
        List.mem_filterMap.2 ⟨c, hc, by simp [hs]⟩
      cases halign : alignOne
          (commonTimestamps (coins.filterMap (fun c => (fetch c).map (fun s => (c, s))))) s with
      | some rs =>
          left
          rw [correlationMatrix_keys]
          exact List.mem_map.2 ⟨(c, rs), mem_aligned_of_alignOne_some hmemres halign, rfl⟩
      | none =>
          right
          exact List.mem_append_right _ (mem_skipped_of_alignOne_none hmemres halign)
  · intro er
    constructor
    · intro her
      unfold correlationEndpoint at her
      by_cases hemp : (coins.filterMap (fun c => (fetch c).map (fun s => (c, s)))).isEmpty = true
      · rw [if_pos hemp] at her
        have her' : (400, "No valid coins provided") = er := by simpa using her
        refine ⟨her'.symm, ?_⟩
        intro c hc
        have hnil : coins.filterMap (fun c => (fetch c).map (fun s => (c, s))) = [] := by
          rwa [List.isEmpty_iff] at hemp
        have hFc := List.filterMap_eq_nil_iff.1 hnil c hc
        rwa [Option.map_eq_none'] at hFc
      · rw [if_neg hemp] at her
        exact absurd her (by simp)
    · rintro ⟨rfl, hall⟩
      have hnil : coins.filterMap (fun c => (fetch c).map (fun s => (c, s))) = [] :=
        List.filterMap_eq_nil_iff.2 (fun c hc => by rw [hall c hc]; rfl)
      unfold correlationEndpoint
      rw [if_pos (by rw [hnil]; rfl)]

/-- Witness for claim C5: with one resolvable coin and one unknown coin the
endpoint answers a matrix response with the unknown coin flagged as skipped. -/
theorem endpoint_per_coin_omission_witness :
    ∃ resp, correlationEndpoint
        (fun c => if c = "bitcoin" then some [(0, (1 : ℚ)), (1, 2)] else none)
        ["bitcoin", "doesnotexist"] = .ok resp ∧ "doesnotexist" ∈ resp.skipped := by
  obtain ⟨resp, hok, hskip, -⟩ :=
    (endpoint_per_coin_omission
      (fun c => if c = "bitcoin" then some [(0, (1 : ℚ)), (1, 2)] else none)
      ["bitcoin", "doesnotexist"]).1 ⟨"bitcoin", by simp, by simp⟩
  exact ⟨resp, hok, hskip "doesnotexist" (by simp) (by simp)⟩

/-- Claim C7: for a price series with all prices positive the derived return
series is one element shorter and each return is the period-over-period
relative change; a coin whose restricted price series contains a zero or
negative price is itself skipped by `align` while any coin whose series aligns
successfully still receives its return series — never a global failure. -/
theorem returns_and_per_coin_skip (ps : List ℚ)
    (input : List (String × List (Nat × ℚ))) (c : String) (s : List (Nat × ℚ))
    (hpos : validPrices ps = true) (hmem : (c, s) ∈ input) :
    (returnsOf ps).length = ps.length - 1 ∧
    (∀ i, (h : i < (returnsOf ps).length) →
      (returnsOf ps).get ⟨i, h⟩ = (ps.getD (i + 1) 0 - ps.getD i 0) / ps.getD i 0) ∧
    (validPrices (restrictTo (commonTimestamps input) s) = false →
      c ∈ (align input).skipped) ∧
    (∀ rs, alignOne (commonTimestamps input) s = some rs → (c, rs) ∈ (align input).aligned) := by
  refine ⟨returnsOf_length ps, returnsOf_get ps, ?_, ?_⟩
  · intro hbad
    have hnone : alignOne (commonTimestamps input) s = none := by
      unfold alignOne
      rw [if_neg]
      rintro ⟨-, hv⟩
      rw [hbad] at hv
      exact absurd hv (by simp)
    exact mem_skipped_of_alignOne_none hmem hnone
  · intro rs hrs
    exact mem_aligned_of_alignOne_some hmem hrs

/-- Witness for claim C7: a positive three-point price series, and a coin whose
restricted series starts at price zero and is therefore skipped. -/
theorem returns_and_per_coin_skip_witness :
    (returnsOf [(1 : ℚ), 2, 4]).length = 2 ∧
    "bad" ∈ (align [("bad", [(0, (0 : ℚ)), (1, 2)])]).skipped := by
  have h := returns_and_per_coin_skip [(1 : ℚ), 2, 4] [("bad", [(0, (0 : ℚ)), (1, 2)])]
    "bad" [(0, (0 : ℚ)), (1, 2)] (by norm_num [validPrices]) (by simp)
  refine ⟨by simpa using h.1, h.2.2.1 ?_⟩
  norm_num [validPrices, restrictTo, commonTimestamps]

end CryptoCorr
